import Mathlib

/-!
# Big5 converter — verification of the table decoder, transcoder and reverse resolver

Shallow embedding of the core of `src/App.tsx`:

* `buildMapping` (source lines 11–25) decodes a base64 blob into a forward
  map from single characters to 4-hex-digit Big5 codes.  We model the bytes
  produced by `atob` as a `List Nat`; `charCodeAt` out of range yields `NaN`,
  which the JS bitwise operators coerce to `0`, hence `charCodeAtZ` below.
  `String.fromCodePoint` throws a `RangeError` for code points above
  `0x10FFFF`, which we model with `Except`.
* `REVERSE_MAPPING` (lines 30–33) inverts the forward map in insertion order.
* `codeLines` / `textOutput` (lines 265–285) transcode input text line by
  line; JS `[...line]` iterates code points, which matches `String.data`.
* `ReverseLookup` (lines 103–256): the resolution logic at lines 112–114.

A JS `Map` keyed by strings/characters uses structural equality
(SameValueZero), keeps insertion order, and `set` on an existing key updates
the value in place; `JsMap` mirrors exactly that.
-/

namespace Big5

/-- Insertion-ordered association map mirroring the JS `Map` used by the
source: `set` on a present key updates the value in place, otherwise appends;
iteration (`for (const [k, v] of m)`) is the `entries` list in order. -/
structure JsMap (α β : Type) [DecidableEq α] where
  entries : List (α × β)

namespace JsMap

variable {α β : Type} [DecidableEq α]

instance [DecidableEq β] : DecidableEq (JsMap α β) := fun a b =>
  decidable_of_iff (a.entries = b.entries) (by cases a; cases b; simp)

/-- `new Map()` -/
def empty : JsMap α β := ⟨[]⟩

/-- `m.set(k, v)`: update in place when the key is present, else append. -/
def set (m : JsMap α β) (k : α) (v : β) : JsMap α β :=
  if m.entries.any (fun p => decide (p.1 = k)) then
    ⟨m.entries.map (fun p => if p.1 = k then (k, v) else p)⟩
  else
    ⟨m.entries ++ [(k, v)]⟩

/-- `m.get(k)`, `undefined` becoming `none`. -/
def get (m : JsMap α β) (k : α) : Option β :=
  (m.entries.find? (fun p => decide (p.1 = k))).map (fun p => p.2)

/-- The keys are pairwise distinct (an invariant of maps built via `set`). -/
def keysNodup (m : JsMap α β) : Prop := (m.entries.map (fun p => p.1)).Nodup

/-- The stored values are pairwise distinct. -/
def valuesNodup (m : JsMap α β) : Prop := (m.entries.map (fun p => p.2)).Nodup

instance (m : JsMap α β) : Decidable m.keysNodup :=
  inferInstanceAs (Decidable (List.Nodup _))

instance [DecidableEq β] (m : JsMap α β) : Decidable m.valuesNodup :=
  inferInstanceAs (Decidable (List.Nodup _))

end JsMap

/-! ## Table decoder (`buildMapping`, `App.tsx` lines 11–25) -/

/-- `raw.charCodeAt(i)` where `raw` is the byte string returned by `atob`:
each in-range position is a byte value below 256; an out-of-range access
yields `NaN`, which `<<` and `|` coerce to `0`. -/
def charCodeAtZ (raw : List Nat) (i : Nat) : Nat := raw.getD i 0

/-- `(raw.charCodeAt(o) << 16) | (raw.charCodeAt(o + 1) << 8) | raw.charCodeAt(o + 2)`
with `o = i * 5` (the record's code point). -/
def cpAt (raw : List Nat) (i : Nat) : Nat :=
  (charCodeAtZ raw (i * 5) <<< 16) ||| (charCodeAtZ raw (i * 5 + 1) <<< 8) |||
    charCodeAtZ raw (i * 5 + 2)

/-- `(raw.charCodeAt(o + 3) << 8) | raw.charCodeAt(o + 4)` (the Big5 code). -/
def big5At (raw : List Nat) (i : Nat) : Nat :=
  (charCodeAtZ raw (i * 5 + 3) <<< 8) ||| charCodeAtZ raw (i * 5 + 4)

/-- Hex digit as produced by JS `Number.prototype.toString(16)`: lowercase. -/
def hexDigitL (n : Nat) : Char :=
  if n < 10 then Char.ofNat (48 + n) else Char.ofNat (87 + n)

/-- Fuel-driven base-16 digit expansion (most significant digit first). -/
def hexDigitsCore : Nat → Nat → List Char
  | 0, _ => []
  | fuel + 1, n =>
    if n < 16 then [hexDigitL n] else hexDigitsCore fuel (n / 16) ++ [hexDigitL (n % 16)]

/-- JS `n.toString(16)` for a natural number: lowercase digits, `"0"` for 0. -/
def jsHexLower (n : Nat) : List Char := hexDigitsCore (n + 1) n

/-- JS `String.prototype.padStart(len, c)`. -/
def jsPadStart (s : List Char) (len : Nat) (c : Char) : List Char :=
  List.replicate (len - s.length) c ++ s

/-- `big5.toString(16).toUpperCase().padStart(4, '0')` (source line 21). -/
def big5HexAt (raw : List Nat) (i : Nat) : String :=
  ⟨jsPadStart ((jsHexLower (big5At raw i)).map Char.toUpper) 4 '0'⟩

/-- The decoder loop of `buildMapping` over the first `n` records.
`String.fromCodePoint` throws (`Except.error`) for code points above
`0x10FFFF`; for valid scalar values it builds the one-character string,
modelled as a `Char` key.  (A lone surrogate would not throw in JS; no claim
relies on that corner, and the hypotheses of the record-format theorem
restrict code points to valid scalar values as the spec's §3 invariant does.) -/
def buildFromE (raw : List Nat) : Nat → Except Unit (JsMap Char String)
  | 0 => .ok JsMap.empty
  | n + 1 =>
    match buildFromE raw n with
    | .error e => .error e
    | .ok m =>
      if cpAt raw n ≤ 0x10FFFF then
        .ok (m.set (Char.ofNat (cpAt raw n)) (big5HexAt raw n))
      else
        .error ()

/-- `buildMapping` including the `atob(BIG5_DATA)` step: `atob` throws on
malformed base64 (modelled as `none`), otherwise yields the raw bytes. -/
def buildMappingE (atobResult : Option (List Nat)) (n : Nat) :
    Except Unit (JsMap Char String) :=
  match atobResult with
  | none => .error ()
  | some raw => buildFromE raw n

/-- `REVERSE_MAPPING` construction (lines 30–33): iterate the forward map in
insertion order, inserting `(big5 → char)`. -/
def reverseOf (m : JsMap Char String) : JsMap String Char :=
  m.entries.foldl (fun r p => r.set p.2 p.1) JsMap.empty

/-! ## Forward transcoder (`codeLines` / `textOutput`, lines 265–285) -/

/-- One output entry: the looked-up (or placeholder) code and the source
character (interface `CodeEntry`, lines 35–38). -/
structure CodeEntry where
  code : String
  char : Char
deriving DecidableEq

/-- `[...line].map(char => ({ code: MAPPING.get(char) ?? '????', char }))` —
JS string spread iterates code points, i.e. the `List Char` of the line. -/
def lineEntries (m : JsMap Char String) (line : List Char) : List CodeEntry :=
  line.map (fun char => { code := (m.get char).getD "????", char := char })

/-- `codeLines` (lines 265–273): empty input short-circuits to `[]`;
otherwise split on `'\n'` and transcode each line. -/
def codeLines (m : JsMap Char String) (input : String) : List (List CodeEntry) :=
  if input = "" then []
  else (input.data.splitOn '\n').map (lineEntries m)

/-- Per-entry formatting (lines 279–281). -/
def entryText (annotate : Bool) (e : CodeEntry) : String :=
  if annotate then e.code ++ "(" ++ String.singleton e.char ++ ")" else e.code

/-- JS `Array.prototype.join(sep)`. -/
def joinWith (sep : String) : List String → String
  | [] => ""
  | [s] => s
  | s :: s' :: rest => s ++ sep ++ joinWith sep (s' :: rest)

/-- `textOutput` (lines 275–285): entries joined with `'★'`, lines with `'\n'`. -/
def textOutput (m : JsMap Char String) (annotate : Bool) (input : String) : String :=
  joinWith "\n"
    ((codeLines m input).map (fun line => joinWith "★" (line.map (entryText annotate))))

/-! ## Reverse resolver (`ReverseLookup`, lines 112–114) -/

/-- The three outcomes the resolver reports (rendered by the UI as the `?`
placeholder, the not-found message, or the character). -/
inductive ResolveResult where
  | incomplete
  | notFound
  | found (c : Char)
deriving DecidableEq

/-- `s.toUpperCase()` (ASCII; hex digits are unaffected by the full Unicode
case mapping). -/
def jsToUpper (s : String) : String := ⟨s.data.map Char.toUpper⟩

/-- `cells.map(c => c.toUpperCase()).join('')` (line 112). -/
def joinedCode (cells : List String) : String := String.join (cells.map jsToUpper)

/-- One character class of the regex: `[0-9A-F]`. -/
def isHexUpper (c : Char) : Bool := ('0' ≤ c && c ≤ '9') || ('A' ≤ c && c ≤ 'F')

/-- The regex test `/^[0-9A-F]{4}$/.test(code)` (line 113). -/
def isComplete (code : String) : Bool :=
  code.data.length == 4 && code.data.all isHexUpper

/-- Lines 112–114 together with the rendering cases at lines 230–236:
incomplete when the regex fails, otherwise found/not-found by reverse lookup. -/
def resolve (rm : JsMap String Char) (cells : List String) : ResolveResult :=
  if isComplete (joinedCode cells) then
    match rm.get (joinedCode cells) with
    | some c => .found c
    | none => .notFound
  else .incomplete

/-! ## Spec-side definitions (for the refinement claims) -/

/-- Spec side (§4.1): big-endian read of `k` bytes starting at byte `off`. -/
def readBE (raw : List Nat) (off : Nat) : Nat → Nat
  | 0 => 0
  | k + 1 => readBE raw off k * 256 + raw.getD (off + k) 0

/-- Uppercase hex digit (spec side). -/
def hexDigitU (n : Nat) : Char :=
  if n < 10 then Char.ofNat (48 + n) else Char.ofNat (55 + n)

/-- Fuel-driven uppercase base-16 expansion (spec side). -/
def hexDigitsUCore : Nat → Nat → List Char
  | 0, _ => []
  | fuel + 1, n =>
    if n < 16 then [hexDigitU n] else hexDigitsUCore fuel (n / 16) ++ [hexDigitU (n % 16)]

/-- Spec side (§4.1): the code "formatted as uppercase hex, left-padded with
'0' to 4 digits". -/
def specHex4 (n : Nat) : String :=
  ⟨List.replicate (4 - (hexDigitsUCore (n + 1) n).length) '0' ++ hexDigitsUCore (n + 1) n⟩

/-- Spec side (§4.1): the forward map described record by record — for record
`i`, a 24-bit big-endian code point from bytes `[5i, 5i+3)` and a 16-bit
big-endian code from bytes `[5i+3, 5i+5)`, the code formatted by `specHex4`. -/
def specBuild (raw : List Nat) : Nat → JsMap Char String
  | 0 => JsMap.empty
  | i + 1 =>
    (specBuild raw i).set (Char.ofNat (readBE raw (i * 5) 3))
      (specHex4 (readBE raw (i * 5 + 3) 2))

/-- Spec side (§4.3): the candidate is exactly 4 valid hex digits (after
uppercase normalization). -/
def Hex4 (s : String) : Prop :=
  s.data.length = 4 ∧ ∀ c ∈ s.data, ('0' ≤ c ∧ c ≤ '9') ∨ ('A' ≤ c ∧ c ≤ 'F')

instance (s : String) : Decidable (Hex4 s) :=
  inferInstanceAs (Decidable (_ ∧ _))

/-! ## Small concrete tables used by witnesses -/

/-- A two-entry forward table: 中 → A4A4, 文 → A4E5 (their real Big5 codes). -/
def mSample : JsMap Char String := (JsMap.empty.set '中' "A4A4").set '文' "A4E5"

/-- A one-entry reverse table. -/
def rmSample : JsMap String Char := JsMap.empty.set "A4A4" '中'

/-- A forward table in which two characters share one code (last wins). -/
def mDup : JsMap Char String := (JsMap.empty.set '中' "AAAA").set '文' "AAAA"

/-- Raw bytes of two records: (U+4E2D, A4A4) and (U+6587, A4E5). -/
def rawSample : List Nat :=
  [0x00, 0x4E, 0x2D, 0xA4, 0xA4, 0x00, 0x65, 0x87, 0xA4, 0xE5]

/-! ## Map lemmas -/

namespace JsMap

variable {α β : Type} [DecidableEq α]

theorem find?_map_setEntry (k : α) (v : β) (k' : α) (l : List (α × β)) :
    (l.map (fun p => if p.1 = k then (k, v) else p)).find? (fun p => decide (p.1 = k')) =
      if k' = k then (l.find? (fun p => decide (p.1 = k))).map (fun _ => (k, v))
      else l.find? (fun p => decide (p.1 = k')) := by
  induction l with
  | nil => by_cases h : k' = k <;> simp [h]
  | cons p t ih =>
    simp only [List.map_cons, List.find?_cons]
    by_cases hk : p.1 = k
    · by_cases hk' : k' = k
      · subst hk'
        simp [hk]
      · simp [hk, hk', Ne.symm hk', ih]
    · by_cases hp' : p.1 = k'
      · have hk' : ¬k' = k := fun h => hk (h ▸ hp')
        simp [hk, hp', hk']
      · by_cases hk' : k' = k
        · subst hk'
          simp [hk, hp', ih, -List.find?_map]
        · simp [hk, hp', hk', ih, -List.find?_map]

theorem get_set (m : JsMap α β) (k : α) (v : β) (k' : α) :
    (m.set k v).get k' = if k' = k then some v else m.get k' := by
  unfold set get
  by_cases hmem : m.entries.any (fun p => decide (p.1 = k)) = true
  · rw [if_pos hmem]
    dsimp only
    rw [find?_map_setEntry]
    by_cases hk' : k' = k
    · subst hk'
      simp only [if_pos rfl]
      have hs : (m.entries.find? (fun p => decide (p.1 = k'))).isSome := by
        rw [List.find?_isSome]
        simpa using List.any_eq_true.mp hmem
      cases hf : m.entries.find? (fun p => decide (p.1 = k')) with
      | none => rw [hf] at hs; cases hs
      | some q => simp
    · simp [hk']
  · rw [if_neg hmem]
    dsimp only
    rw [List.find?_append]
    by_cases hk' : k' = k
    · subst hk'
      have hnone : m.entries.find? (fun p => decide (p.1 = k')) = none := by
        rw [List.find?_eq_none]
        intro p hp hpk
        exact hmem (List.any_eq_true.mpr ⟨p, hp, hpk⟩)
      simp [hnone, List.find?_cons]
    · have hk'' : ¬k = k' := fun h => hk' h.symm
      cases hf : m.entries.find? (fun p => decide (p.1 = k')) with
      | none => simp [hf, List.find?_cons, hk', hk'']
      | some q => simp [hf, hk']

theorem keysNodup_empty : (empty : JsMap α β).keysNodup := by
  simp [empty, keysNodup]

theorem keysNodup_set (m : JsMap α β) (k : α) (v : β) (h : m.keysNodup) :
    (m.set k v).keysNodup := by
  unfold keysNodup at *
  unfold set
  by_cases hmem : m.entries.any (fun p => decide (p.1 = k)) = true
  · rw [if_pos hmem]
    dsimp only
    have heq : (m.entries.map (fun p => if p.1 = k then (k, v) else p)).map (fun p => p.1) =
        m.entries.map (fun p => p.1) := by
      rw [List.map_map]
      apply List.map_congr_left
      intro p _
      by_cases hpk : p.1 = k <;> simp [hpk]
    rw [heq]
    exact h
  · rw [if_neg hmem]
    dsimp only
    rw [List.map_append, List.nodup_append]
    refine ⟨h, List.nodup_singleton _, ?_⟩
    intro a ha hb
    simp at hb
    subst hb
    obtain ⟨p, hp, hpk⟩ := List.mem_map.mp ha
    exact hmem (List.any_eq_true.mpr ⟨p, hp, by simp [hpk]⟩)

theorem find?_key_of_mem :
    ∀ (l : List (α × β)), (l.map (fun p => p.1)).Nodup →
      ∀ {k : α} {v : β}, (k, v) ∈ l → l.find? (fun p => decide (p.1 = k)) = some (k, v) := by
  intro l
  induction l with
  | nil => intro _ k v h; cases h
  | cons p t ih =>
    intro hnd k v hmem
    rw [List.map_cons, List.nodup_cons] at hnd
    obtain ⟨hknot, hnd'⟩ := hnd
    rcases List.mem_cons.mp hmem with heq | hmem'
    · rw [← heq]
      simp [List.find?_cons]
    · have hk : ¬p.1 = k := by
        intro hpk
        exact hknot (hpk ▸ List.mem_map.mpr ⟨(k, v), hmem', rfl⟩)
      simp only [List.find?_cons, hk, decide_False]
      exact ih hnd' hmem'

theorem get_eq_some_of_mem {m : JsMap α β} (hnd : m.keysNodup) {k : α} {v : β}
    (hmem : (k, v) ∈ m.entries) : m.get k = some v := by
  unfold get
  rw [find?_key_of_mem m.entries hnd hmem]
  rfl

theorem mem_of_get_eq_some {m : JsMap α β} {k : α} {v : β} (h : m.get k = some v) :
    (k, v) ∈ m.entries := by
  unfold get at h
  cases hf : m.entries.find? (fun p => decide (p.1 = k)) with
  | none => rw [hf] at h; cases h
  | some q =>
    rw [hf] at h
    have hq1 : q.1 = k := by simpa using List.find?_some hf
    have hq2 : q.2 = v := by simpa using h
    have hqm := List.mem_of_find?_eq_some hf
    have : q = (k, v) := by
      obtain ⟨q1, q2⟩ := q
      simp_all
    exact this ▸ hqm

theorem get_empty (k : α) : (empty : JsMap α β).get k = none := rfl

omit [DecidableEq α] in
theorem foldl_set_get [DecidableEq β] (h : β) :
    ∀ (l : List (α × β)) (r : JsMap β α),
      (l.foldl (fun r p => r.set p.2 p.1) r).get h =
        (match l.reverse.find? (fun p => decide (p.2 = h)) with
         | some p => some p.1
         | none => r.get h) := by
  intro l
  induction l with
  | nil => intro r; simp
  | cons p t ih =>
    intro r
    rw [List.foldl_cons, ih, List.reverse_cons, List.find?_append]
    cases hf : t.reverse.find? (fun p => decide (p.2 = h)) with
    | some q => simp
    | none =>
      simp only [Option.none_or]
      rw [get_set]
      by_cases hp : h = p.2
      · simp [List.find?_cons, hp]
      · have hp2 : ¬p.2 = h := fun hh => hp hh.symm
        simp [List.find?_cons, hp, hp2]

end JsMap

/-! ## Arithmetic and hex-formatting lemmas -/

theorem shiftLeft_lor_eq_add (x y k : Nat) (hy : y < 2 ^ k) :
    (x <<< k) ||| y = x * 2 ^ k + y := by
  rw [Nat.shiftLeft_eq, Nat.mul_comm x (2 ^ k), ← Nat.mul_add_lt_is_or hy]

theorem charCodeAtZ_lt (raw : List Nat) (hb : ∀ b ∈ raw, b < 256) (i : Nat) :
    charCodeAtZ raw i < 256 := by
  unfold charCodeAtZ
  rw [List.getD_eq_getElem?_getD]
  cases hg : raw[i]? with
  | none => simp
  | some b => simpa using hb b (List.getElem?_mem hg)

theorem readBE_three (raw : List Nat) (off : Nat) :
    readBE raw off 3 =
      (raw.getD off 0 * 256 + raw.getD (off + 1) 0) * 256 + raw.getD (off + 2) 0 := by
  simp [readBE]

theorem readBE_two (raw : List Nat) (off : Nat) :
    readBE raw off 2 = raw.getD off 0 * 256 + raw.getD (off + 1) 0 := by
  simp [readBE]

theorem cpAt_eq_readBE (raw : List Nat) (hb : ∀ b ∈ raw, b < 256) (i : Nat) :
    cpAt raw i = readBE raw (i * 5) 3 := by
  have h1 := charCodeAtZ_lt raw hb (i * 5 + 1)
  have h2 := charCodeAtZ_lt raw hb (i * 5 + 2)
  have e8 : (2 : Nat) ^ 8 = 256 := by norm_num
  have e16 : (2 : Nat) ^ 16 = 65536 := by norm_num
  unfold cpAt
  rw [Nat.lor_assoc, shiftLeft_lor_eq_add _ _ 8 (by omega),
    shiftLeft_lor_eq_add _ _ 16 (by omega), readBE_three]
  unfold charCodeAtZ
  omega

theorem big5At_eq_readBE (raw : List Nat) (hb : ∀ b ∈ raw, b < 256) (i : Nat) :
    big5At raw i = readBE raw (i * 5 + 3) 2 := by
  have h4 := charCodeAtZ_lt raw hb (i * 5 + 4)
  have e8 : (2 : Nat) ^ 8 = 256 := by norm_num
  unfold big5At
  rw [shiftLeft_lor_eq_add _ _ 8 (by omega), readBE_two]
  have e : i * 5 + 3 + 1 = i * 5 + 4 := by omega
  rw [e]
  unfold charCodeAtZ
  omega

theorem readBE_two_lt (raw : List Nat) (hb : ∀ b ∈ raw, b < 256) (off : Nat) :
    readBE raw off 2 < 65536 := by
  have h0 := charCodeAtZ_lt raw hb off
  have h1 := charCodeAtZ_lt raw hb (off + 1)
  rw [readBE_two]
  unfold charCodeAtZ at h0 h1
  omega

theorem hexDigitsCore_fuel :
    ∀ f₁ f₂ n : Nat, n < f₁ → n < f₂ → hexDigitsCore f₁ n = hexDigitsCore f₂ n := by
  intro f₁
  induction f₁ with
  | zero => intro f₂ n h; omega
  | succ f ih =>
    intro f₂ n h1 h2
    cases f₂ with
    | zero => omega
    | succ g =>
      simp only [hexDigitsCore]
      by_cases hn : n < 16
      · simp [hn]
      · rw [if_neg hn, if_neg hn, ih g (n / 16) (by omega) (by omega)]

theorem hexDigitsUCore_fuel :
    ∀ f₁ f₂ n : Nat, n < f₁ → n < f₂ → hexDigitsUCore f₁ n = hexDigitsUCore f₂ n := by
  intro f₁
  induction f₁ with
  | zero => intro f₂ n h; omega
  | succ f ih =>
    intro f₂ n h1 h2
    cases f₂ with
    | zero => omega
    | succ g =>
      simp only [hexDigitsUCore]
      by_cases hn : n < 16
      · simp [hn]
      · rw [if_neg hn, if_neg hn, ih g (n / 16) (by omega) (by omega)]

theorem toUpper_hexDigit : ∀ d : Nat, d < 16 → Char.toUpper (hexDigitL d) = hexDigitU d := by
  decide

theorem map_toUpper_hexDigitsCore :
    ∀ fuel n : Nat, (hexDigitsCore fuel n).map Char.toUpper = hexDigitsUCore fuel n := by
  intro fuel
  induction fuel with
  | zero => intro n; rfl
  | succ f ih =>
    intro n
    simp only [hexDigitsCore, hexDigitsUCore]
    by_cases hn : n < 16
    · simp [hn, toUpper_hexDigit n hn]
    · rw [if_neg hn, if_neg hn, List.map_append, ih]
      simp [toUpper_hexDigit (n % 16) (by omega)]

theorem hexDigitsUCore_length :
    ∀ k n : Nat, n < 16 ^ k → 0 < k → (hexDigitsUCore (n + 1) n).length ≤ k := by
  intro k
  induction k with
  | zero => omega
  | succ k ih =>
    intro n hn _
    simp only [hexDigitsUCore]
    by_cases h16 : n < 16
    · simp [h16]
    · rw [if_neg h16, List.length_append]
      rcases Nat.eq_zero_or_pos k with hk0 | hkpos
      · subst hk0
        have e : (16 : Nat) ^ (0 + 1) = 16 := by norm_num
        omega
      · have hub : n / 16 < 16 ^ k := by
          have hp : (16 : Nat) ^ (k + 1) = 16 ^ k * 16 := pow_succ 16 k
          omega
        have hf : hexDigitsUCore n (n / 16) = hexDigitsUCore (n / 16 + 1) (n / 16) :=
          hexDigitsUCore_fuel n (n / 16 + 1) (n / 16) (by omega) (by omega)
        rw [hf]
        have := ih (n / 16) hub hkpos
        simp only [List.length_cons, List.length_nil]
        omega

theorem specHex4_length (n : Nat) (hn : n < 65536) : (specHex4 n).data.length = 4 := by
  unfold specHex4
  have hl := hexDigitsUCore_length 4 n
    (by have e : (16 : Nat) ^ 4 = 65536 := by norm_num
        omega)
    (by norm_num)
  simp only [String.data]
  rw [List.length_append, List.length_replicate]
  omega

theorem big5HexAt_eq_specHex4 (raw : List Nat) (i : Nat) :
    big5HexAt raw i = specHex4 (big5At raw i) := by
  unfold big5HexAt specHex4 jsPadStart jsHexLower
  rw [map_toUpper_hexDigitsCore]

/-! ## Claims about the decoder -/

/-- C3: the decoder, for every record index `i < N`, reads a 24-bit big-endian
code point from bytes `[5i, 5i+3)` and a 16-bit big-endian code from bytes
`[5i+3, 5i+5)`, and inserts the single-character string of that code point
mapped to the code formatted as uppercase hexadecimal left-padded with `'0'`
to exactly 4 digits.  Hypotheses: the decoded bytes are bytes (below 256, as
`atob` guarantees) and each record's code point is a valid Unicode scalar
value (the spec's §3 invariant). -/
theorem c3_decoder_record_format (raw : List Nat) (n : Nat)
    (hb : ∀ b ∈ raw, b < 256)
    (hcp : ∀ i, i < n → (readBE raw (i * 5) 3).isValidChar) :
    buildFromE raw n = .ok (specBuild raw n) ∧
    ∀ i, i < n → big5HexAt raw i = specHex4 (readBE raw (i * 5 + 3) 2) ∧
      (specHex4 (readBE raw (i * 5 + 3) 2)).data.length = 4 := by
  have main : ∀ nn : Nat, (∀ i, i < nn → (readBE raw (i * 5) 3).isValidChar) →
      buildFromE raw nn = .ok (specBuild raw nn) := by
    intro nn
    induction nn with
    | zero => intro _; rfl
    | succ k ih =>
      intro hcp'
      have ihh := ih (fun i hi => hcp' i (Nat.lt_succ_of_lt hi))
      simp only [buildFromE, specBuild]
      rw [ihh]
      have hv := hcp' k (Nat.lt_succ_self k)
      have hle : cpAt raw k ≤ 0x10FFFF := by
        rw [cpAt_eq_readBE raw hb k]
        unfold Nat.isValidChar at hv
        omega
      dsimp only
      rw [if_pos hle, cpAt_eq_readBE raw hb k, big5HexAt_eq_specHex4,
        big5At_eq_readBE raw hb k]
  refine ⟨main n hcp, ?_⟩
  intro i _
  refine ⟨?_, specHex4_length _ (readBE_two_lt raw hb _)⟩
  rw [big5HexAt_eq_specHex4, big5At_eq_readBE raw hb i]

/-- Witness for C3 at a concrete two-record blob. -/
theorem c3_decoder_record_format_witness :
    (∀ b ∈ rawSample, b < 256) ∧
    buildFromE rawSample 2 = .ok (specBuild rawSample 2) :=
  ⟨by decide, (c3_decoder_record_format rawSample 2 (by decide) (by decide)).1⟩

/-- C5 counterexample: a blob that decodes (successfully) to 0 bytes — fewer
than `recordCount * 5 = 5` — does NOT make table construction fail: the
out-of-range `charCodeAt` calls yield `NaN`, the bitwise operators coerce it
to 0, and a forward map is silently produced. -/
theorem c5_short_blob_counterexample :
    ([] : List Nat).length < 1 * 5 ∧
    buildMappingE (some []) 1 = .ok ⟨[(Char.ofNat 0, "0000")]⟩ :=
  ⟨by decide, rfl⟩

/-- C5 (amended): malformed base64 makes table construction fail fatally at
module load (`atob` throws), but a blob that decodes to fewer than
`recordCount * 5` bytes does not fail — out-of-range reads behave as zero
bytes and a forward map is silently produced. -/
theorem c5_malformed_fatal_short_silent (n : Nat) :
    buildMappingE none n = .error () ∧
    buildMappingE (some []) 1 = .ok ⟨[(Char.ofNat 0, "0000")]⟩ :=
  ⟨rfl, rfl⟩

/-! ## Claims about the reverse map -/

/-- C2: for every character `c` present in the forward table with code
`code`, resolving `code` through the derived reverse map returns exactly `c`
(round-trip `reverse(forward(c)) = c`).  The embedded table blob is not in
the sources, so its duplicate-freedom (`valuesNodup`, which the spec assumes
of the real data in §3/§9) is a hypothesis. -/
theorem c2_forward_reverse_roundtrip (m : JsMap Char String)
    (hv : m.valuesNodup) (c : Char) (code : String)
    (hget : m.get c = some code) :
    (reverseOf m).get code = some c := by
  have hmem := JsMap.mem_of_get_eq_some hget
  unfold reverseOf
  rw [JsMap.foldl_set_get]
  cases hf : m.entries.reverse.find? (fun p => decide (p.2 = code)) with
  | none =>
    exfalso
    rw [List.find?_eq_none] at hf
    exact absurd (by simp) (hf (c, code) (List.mem_reverse.mpr hmem))
  | some q =>
    have hq2 : q.2 = code := by simpa using List.find?_some hf
    have hqm : q ∈ m.entries := List.mem_reverse.mp (List.mem_of_find?_eq_some hf)
    have hvn : (m.entries.map (fun p => p.2)).Nodup := hv
    have hqe : q = (c, code) := List.inj_on_of_nodup_map hvn hqm hmem (by simp [hq2])
    simp [hqe]

/-- Witness for C2 at the concrete two-entry table. -/
theorem c2_forward_reverse_roundtrip_witness :
    mSample.valuesNodup ∧ mSample.get '中' = some "A4A4" ∧
    (reverseOf mSample).get "A4A4" = some '中' :=
  ⟨by decide, by decide,
    c2_forward_reverse_roundtrip mSample (by decide) '中' "A4A4" (by decide)⟩

/-- C10: every key `code` of the reverse map resolves to a character that is
a key of the forward map with `forward(reverse(code)) = code`, and the
reverse map's key set is exactly the forward map's value set; only the
key-uniqueness invariant of the forward map is needed, so this holds even
when several characters share one code (the last-inserted one wins, as the
witness at a duplicated-code table shows). -/
theorem c10_reverse_forward_roundtrip (m : JsMap Char String) (hk : m.keysNodup) :
    (∀ code c, (reverseOf m).get code = some c → m.get c = some code) ∧
    (∀ code, ((reverseOf m).get code).isSome ↔ ∃ c, m.get c = some code) := by
  have key : ∀ code c, (reverseOf m).get code = some c → m.get c = some code := by
    intro code c hgc
    unfold reverseOf at hgc
    rw [JsMap.foldl_set_get] at hgc
    cases hf : m.entries.reverse.find? (fun p => decide (p.2 = code)) with
    | none => rw [hf] at hgc; exact absurd hgc (by simp [JsMap.get_empty])
    | some q =>
      rw [hf] at hgc
      have hq1 : q.1 = c := by simpa using hgc
      have hq2 : q.2 = code := by simpa using List.find?_some hf
      have hqm : q ∈ m.entries := List.mem_reverse.mp (List.mem_of_find?_eq_some hf)
      have hqm' : (q.1, q.2) ∈ m.entries := by simpa using hqm
      have hres := JsMap.get_eq_some_of_mem hk hqm'
      rw [hq1, hq2] at hres
      exact hres
  refine ⟨key, ?_⟩
  intro code
  constructor
  · intro hs
    cases hg : (reverseOf m).get code with
    | none => rw [hg] at hs; cases hs
    | some c => exact ⟨c, key code c hg⟩
  · rintro ⟨c, hc⟩
    have hmem := JsMap.mem_of_get_eq_some hc
    unfold reverseOf
    rw [JsMap.foldl_set_get]
    cases hf : m.entries.reverse.find? (fun p => decide (p.2 = code)) with
    | none =>
      exfalso
      rw [List.find?_eq_none] at hf
      exact absurd (by simp) (hf (c, code) (List.mem_reverse.mpr hmem))
    | some q => simp

/-- Witness for C10 at a table in which two characters share one code. -/
theorem c10_reverse_forward_roundtrip_witness :
    mDup.keysNodup ∧ ¬mDup.valuesNodup ∧
    (reverseOf mDup).get "AAAA" = some '文' ∧
    mDup.get '文' = some "AAAA" :=
  ⟨by decide, by decide, by decide,
    (c10_reverse_forward_roundtrip mDup (by decide)).1 "AAAA" '文' (by decide)⟩

/-! ## Claims about the forward transcoder -/

/-- C1: for every non-empty input, the transcoded output has one line per
input line; within each line there is exactly one code entry per Unicode
character (code points, so a supplementary-plane character counts once),
in order, and a character absent from the forward map yields the fixed
placeholder `"????"` at its position instead of being dropped. -/
theorem c1_one_entry_per_character (m : JsMap Char String) (input : String)
    (h : input ≠ "") :
    (codeLines m input).length = (input.data.splitOn '\n').length ∧
    ∀ i, i < (input.data.splitOn '\n').length →
      ((codeLines m input).getD i []).length =
        ((input.data.splitOn '\n').getD i []).length ∧
      ∀ j, j < ((input.data.splitOn '\n').getD i []).length →
        ((codeLines m input).getD i []).getD j ⟨"????", ' '⟩ =
          { code := (m.get (((input.data.splitOn '\n').getD i []).getD j ' ')).getD "????",
            char := ((input.data.splitOn '\n').getD i []).getD j ' ' } := by
  unfold codeLines
  rw [if_neg h]
  refine ⟨by simp, ?_⟩
  intro i hi
  have hmap : ((input.data.splitOn '\n').map (lineEntries m)).getD i [] =
      lineEntries m ((input.data.splitOn '\n').getD i []) := by
    rw [List.getD_eq_getElem?_getD, List.getElem?_map, List.getElem?_eq_getElem hi,
      List.getD_eq_getElem?_getD, List.getElem?_eq_getElem hi]
    rfl
  rw [hmap]
  unfold lineEntries
  refine ⟨by simp, ?_⟩
  generalize (input.data.splitOn '\n').getD i [] = line
  intro j hj
  simp [List.getD_eq_getElem?_getD, List.getElem?_map, List.getElem?_eq_getElem hj]

/-- Witness for C1, on an input whose first line holds a mapped BMP character
and an unmapped supplementary-plane character (one entry each). -/
theorem c1_one_entry_per_character_witness :
    ("中𠀀\nX" : String) ≠ "" ∧
    (codeLines mSample "中𠀀\nX").length = ("中𠀀\nX".data.splitOn '\n').length ∧
    ((codeLines mSample "中𠀀\nX").getD 0 []).length = 2 ∧
    (codeLines mSample "中𠀀\nX").getD 0 [] = [⟨"A4A4", '中'⟩, ⟨"????", '𠀀'⟩] :=
  ⟨by decide, (c1_one_entry_per_character mSample "中𠀀\nX" (by decide)).1,
    by decide, by decide⟩

/-- C6: entries within a line are joined with the star separator, lines with
the newline character; the two-line input `"中\n文"` (each line one mapped
character) produces two newline-joined segments, each a single code entry,
with no stray separators. -/
theorem c6_star_and_newline_joins (m : JsMap Char String) (b : Bool) (input : String)
    (h : input ≠ "") :
    textOutput m b input =
      joinWith "\n" ((input.data.splitOn '\n').map
        (fun line => joinWith "★" (line.map
          (fun c => entryText b { code := (m.get c).getD "????", char := c })))) ∧
    textOutput mSample false "中\n文" = "A4A4\nA4E5" ∧
    '★' ∉ (textOutput mSample false "中\n文").data := by
  refine ⟨?_, by decide, by decide⟩
  unfold textOutput codeLines
  rw [if_neg h, List.map_map]
  apply congrArg
  apply List.map_congr_left
  intro line _
  show joinWith "★" ((lineEntries m line).map (entryText b)) = _
  unfold lineEntries
  rw [List.map_map]
  rfl

/-- Witness for C6 at the concrete two-line input. -/
theorem c6_star_and_newline_joins_witness :
    textOutput mSample false "中\n文" = "A4A4\nA4E5" ∧
    '★' ∉ (textOutput mSample false "中\n文").data :=
  (c6_star_and_newline_joins mSample false "中\n文" (by decide)).2

/-- C7: forward transcoding is pure and total — for every input string and
either annotation setting it returns a result string, and every entry it
produces is a normal value: the character's code when mapped, the `"????"`
placeholder when not; no input content can make it fail. -/
theorem c7_total (m : JsMap Char String) (b : Bool) (input : String)
    (line : List CodeEntry) (e : CodeEntry)
    (hl : line ∈ codeLines m input) (he : e ∈ line) :
    (∃ out : String, textOutput m b input = out) ∧
    (m.get e.char = some e.code ∨ (m.get e.char = none ∧ e.code = "????")) := by
  refine ⟨⟨_, rfl⟩, ?_⟩
  unfold codeLines at hl
  by_cases h : input = ""
  · rw [if_pos h] at hl
    cases hl
  · rw [if_neg h] at hl
    obtain ⟨l, _, rfl⟩ := List.mem_map.mp hl
    unfold lineEntries at he
    obtain ⟨c, _, rfl⟩ := List.mem_map.mp he
    cases hg : m.get c with
    | none => right; simp [hg]
    | some s => left; simp [hg]

/-- Witness for C7 at a concrete input with one mapped and one unmapped
character. -/
theorem c7_total_witness :
    (∃ out : String, textOutput mSample true "中X" = out) ∧
    (mSample.get '中' = some "A4A4" ∨ (mSample.get '中' = none ∧ "A4A4" = "????")) :=
  c7_total mSample true "中X" [⟨"A4A4", '中'⟩, ⟨"????", 'X'⟩] ⟨"A4A4", '中'⟩
    (by decide) (by decide)

/-- C8: the empty input is an empty sequence of lines, not one blank line:
it transcodes to the empty output with no entries at all (hence no `????`). -/
theorem c8_empty_input (m : JsMap Char String) (b : Bool) :
    codeLines m "" = [] ∧ textOutput m b "" = "" :=
  ⟨rfl, rfl⟩

/-- C9: with annotation enabled every entry has the form `CODE(character)`,
where `CODE` is exactly the entry produced with annotation disabled; at the
spec's example, `"中"` yields `"A4A4(中)"` versus `"A4A4"`. -/
theorem c9_annotation_format (e : CodeEntry) :
    entryText true e = entryText false e ++ "(" ++ String.singleton e.char ++ ")" ∧
    entryText false e = e.code ∧
    textOutput mSample true "中" = "A4A4(中)" ∧
    textOutput mSample false "中" = "A4A4" :=
  ⟨rfl, rfl, by decide, by decide⟩

/-! ## Claim about the reverse resolver -/

/-- C4: the resolver reports exactly one of three outcomes and never throws:
`incomplete` exactly when the (uppercase-normalized) candidate is not 4 valid
hex digits; otherwise it looks the normalized code up in the reverse map and
reports the found character or `notFound`. -/
theorem c4_resolver_trichotomy (rm : JsMap String Char) (cells : List String) :
    (resolve rm cells = .incomplete ↔ ¬Hex4 (joinedCode cells)) ∧
    (Hex4 (joinedCode cells) →
      resolve rm cells =
        match rm.get (joinedCode cells) with
        | some c => .found c
        | none => .notFound) := by
  have hiff : isComplete (joinedCode cells) = true ↔ Hex4 (joinedCode cells) := by
    unfold isComplete Hex4 isHexUpper
    simp [List.all_eq_true]
  constructor
  · constructor
    · intro hres hhex
      unfold resolve at hres
      rw [if_pos (hiff.mpr hhex)] at hres
      cases hg : rm.get (joinedCode cells) with
      | some c => rw [hg] at hres; exact ResolveResult.noConfusion hres
      | none => rw [hg] at hres; exact ResolveResult.noConfusion hres
    · intro hnh
      unfold resolve
      rw [if_neg fun hc => hnh (hiff.mp hc)]
  · intro hhex
    unfold resolve
    rw [if_pos (hiff.mpr hhex)]

/-- Witness for C4: a 2-digit candidate is incomplete (not `notFound`), a
lowercase complete candidate is normalized and found, and a well-formed but
absent code is `notFound`. -/
theorem c4_resolver_trichotomy_witness :
    resolve rmSample ["a", "c", "", ""] = .incomplete ∧
    resolve rmSample ["a", "4", "a", "4"] = .found '中' ∧
    resolve rmSample ["F", "F", "F", "F"] = .notFound :=
  ⟨(c4_resolver_trichotomy rmSample ["a", "c", "", ""]).1.mpr (by decide),
    (c4_resolver_trichotomy rmSample ["a", "4", "a", "4"]).2 (by decide),
    (c4_resolver_trichotomy rmSample ["F", "F", "F", "F"]).2 (by decide)⟩

end Big5
